import Mathlib

/-!
Verification of the cashflow projection engine (`src/projection/cashflow.rs`
and the data model in `src/models/data.rs`).

Modelling conventions:
* `chrono::NaiveDate` is embedded as a triple (year, month, day) together with
  a validity invariant (`NDate.Valid`); `NaiveDate` is the subtype of valid
  triples, so every date value in scope is a real calendar date, exactly as
  every `chrono::NaiveDate` value is.
* `rust_decimal::Decimal` amounts are embedded as `Int`: the engine only adds
  amounts, and exact-decimal addition is integer addition on the scaled
  representation.
* `Uuid` identifiers and `DateTime<Utc>` creation timestamps are embedded as
  `Nat`: the engine uses identifiers only for equality and timestamps only
  for ordering.
* `Vec::sort_by` is a stable sort by a total comparator; it is embedded as
  `List.insertionSort` with the comparator's "not greater" relation, which is
  the same stable sort.
* The `loop` in `generate_recurring_transactions` advances its month pointer
  by exactly one calendar month per iteration, so its iteration count is
  bounded by the number of months between the start and end dates; the
  embedding runs the loop body on a fuel argument initialised to that bound.
* The engine's `anyhow::Result` has a single error (`NoBalanceAnchor`,
  produced when there is no balance snapshot); it is embedded as `Option`,
  with `none` as the error case.
* `Local::now().date_naive()` (the clock read in `project_cashflow`) is made
  an explicit parameter `today`, so that dependence on the clock is visible
  in the model.
* The horizon `days` has Rust type `i64`, but per the CLI and the spec it is
  a non-negative count of days; it is embedded as `Nat`.
-/

/-- A raw (year, month, day) triple, the carrier of the date embedding. -/
structure NDate where
  year : Int
  month : Nat
  day : Nat
deriving DecidableEq, Repr

/-- Proleptic-Gregorian leap year test, as implemented by `chrono`. -/
def isLeapYear (y : Int) : Bool :=
  y % 4 == 0 && (y % 100 != 0 || y % 400 == 0)

/-- Number of days of a month.  The source's `days_in_month` computes
(first day of next month − 1 day) with `chrono`; this closed form is the
value that computation yields.  The catch-all branch is unreachable for
valid months. -/
def days_in_month (year : Int) (month : Nat) : Nat :=
  match month with
  | 1 => 31
  | 2 => if isLeapYear year then 29 else 28
  | 3 => 31
  | 4 => 30
  | 5 => 31
  | 6 => 30
  | 7 => 31
  | 8 => 31
  | 9 => 30
  | 10 => 31
  | 11 => 30
  | 12 => 31
  | _ => 1

/-- The invariant every `chrono::NaiveDate` value satisfies. -/
def NDate.Valid (d : NDate) : Prop :=
  1 ≤ d.month ∧ d.month ≤ 12 ∧ 1 ≤ d.day ∧ d.day ≤ days_in_month d.year d.month

instance (d : NDate) : Decidable d.Valid := by
  unfold NDate.Valid; infer_instance

/-- The embedding of `chrono::NaiveDate`: a valid calendar date. -/
abbrev NaiveDate := { d : NDate // d.Valid }

/-- `NaiveDate::from_ymd_opt`: build a date, `none` when it is not a real
calendar date. -/
def from_ymd_opt (year : Int) (month day : Nat) : Option NaiveDate :=
  if h : NDate.Valid ⟨year, month, day⟩ then some ⟨⟨year, month, day⟩, h⟩ else none

def NaiveDate.year (d : NaiveDate) : Int := d.val.year
def NaiveDate.month (d : NaiveDate) : Nat := d.val.month
def NaiveDate.day (d : NaiveDate) : Nat := d.val.day

/-- `Ord::cmp` on `i64`/`i32`. -/
def intCmp (a b : Int) : Ordering :=
  if a < b then .lt else if a = b then .eq else .gt

/-- `Ord::cmp` on unsigned integers. -/
def natCmp (a b : Nat) : Ordering :=
  if a < b then .lt else if a = b then .eq else .gt

/-- `Ord::cmp` on `chrono::NaiveDate`: chronological order, i.e. lexicographic
on (year, month, day). -/
def NaiveDate.cmp (a b : NaiveDate) : Ordering :=
  (intCmp a.year b.year).then ((natCmp a.month b.month).then (natCmp a.day b.day))

instance : LT NaiveDate := ⟨fun a b => NaiveDate.cmp a b = .lt⟩
instance : LE NaiveDate := ⟨fun a b => NaiveDate.cmp a b ≠ .gt⟩

instance (a b : NaiveDate) : Decidable (a < b) :=
  inferInstanceAs (Decidable (NaiveDate.cmp a b = .lt))

instance (a b : NaiveDate) : Decidable (a ≤ b) :=
  inferInstanceAs (Decidable (NaiveDate.cmp a b ≠ .gt))

/-- `RecurringTransaction` from `src/models/data.rs`. -/
structure RecurringTransaction where
  id : Nat
  description : String
  amount : Int
  day_of_month : Nat
  active : Bool
  created_at : Nat
deriving DecidableEq, Repr

/-- `OneTimeTransaction` from `src/models/data.rs`. -/
structure OneTimeTransaction where
  id : Nat
  description : String
  amount : Int
  date : NaiveDate
  created_at : Nat
deriving DecidableEq, Repr

/-- `BalanceSnapshot` from `src/models/data.rs`. -/
structure BalanceSnapshot where
  id : Nat
  date : NaiveDate
  balance : Int
  created_at : Nat
deriving DecidableEq, Repr

/-- `CashflowData` from `src/models/data.rs`. -/
structure CashflowData where
  recurring : List RecurringTransaction
  one_time : List OneTimeTransaction
  balance_snapshots : List BalanceSnapshot
deriving DecidableEq, Repr

/-- The projection output row (`from_recurring`/`from_one_time` constructors in
`src/models/data.rs`): date, day-of-month, description, amount, source-kind
flag and the running balance after applying the amount. -/
structure ProjectedTransaction where
  date : NaiveDate
  day_of_month : Nat
  description : String
  amount : Int
  is_one_time : Bool
  balance_after : Int
deriving DecidableEq, Repr

def ProjectedTransaction.from_recurring (txn : RecurringTransaction)
    (date : NaiveDate) (balance_after : Int) : ProjectedTransaction :=
  { date := date
    day_of_month := txn.day_of_month
    description := txn.description
    amount := txn.amount
    is_one_time := false
    balance_after := balance_after }

def ProjectedTransaction.from_one_time (txn : OneTimeTransaction)
    (balance_after : Int) : ProjectedTransaction :=
  { date := txn.date
    day_of_month := txn.date.day
    description := txn.description
    amount := txn.amount
    is_one_time := true
    balance_after := balance_after }

/-- The month pointer position as a count of months, used to bound the
iteration of `generate_recurring_transactions`. -/
def month_index (d : NDate) : Int := d.year * 12 + d.month

/-- One step of Rust's `Iterator::max_by_key(|s| s.date)` fold
(`cmp::max_by`): the current candidate survives only when it compares
strictly greater than the next element, so among equal keys the later
element wins. -/
def max_by_date_step (acc : Option BalanceSnapshot) (s : BalanceSnapshot) :
    Option BalanceSnapshot :=
  match acc with
  | none => some s
  | some best =>
    if NaiveDate.cmp best.date s.date = .gt then some best else some s

/-- `find_latest_balance_snapshot`: `iter().max_by_key(|s| s.date)`. -/
def find_latest_balance_snapshot (data : CashflowData) : Option BalanceSnapshot :=
  data.balance_snapshots.foldl max_by_date_step none

/-- `get_transaction_date_in_month`: clamp the rule's target day to the
month of `base_date`. -/
def get_transaction_date_in_month (base_date : NaiveDate) (day_of_month : Nat) :
    Option NaiveDate :=
  let year := base_date.year
  let month := base_date.month
  let days := days_in_month year month
  let actual_day := min day_of_month days
  from_ymd_opt year month actual_day

/-- `next_month`: advance the month pointer one month, preserving the day
number, falling back to day 1 of the new month when that day does not exist
there.  (In the source the fallback is `from_ymd_opt(year, month + 1, 1)
.unwrap()`, which always succeeds for a valid input date.) -/
def next_month (date : NaiveDate) : NaiveDate :=
  if h : date.month = 12 then
    match from_ymd_opt (date.year + 1) 1 date.day with
    | some d => d
    | none =>
      ⟨⟨date.year + 1, 1, 1⟩, by
        refine ⟨?_, ?_, ?_, ?_⟩
        · show (1:Nat) ≤ 1; decide
        · show (1:Nat) ≤ 12; decide
        · show (1:Nat) ≤ 1; decide
        · show (1:Nat) ≤ 31; decide⟩
  else
    match from_ymd_opt date.year (date.month + 1) date.day with
    | some d => d
    | none =>
      ⟨⟨date.year, date.month + 1, 1⟩, by
        have hm : date.val.month ≤ 12 := date.property.2.1
        have hne : date.val.month ≠ 12 := h
        refine ⟨?_, ?_, ?_, ?_⟩
        · show 1 ≤ date.val.month + 1; omega
        · show date.val.month + 1 ≤ 12; omega
        · exact Nat.le_refl 1
        · show 1 ≤ days_in_month date.val.year (date.val.month + 1)
          unfold days_in_month
          split <;> first | decide | (split <;> decide)⟩

/-- An element of the working vectors `past_transactions`/`transactions`:
`(NaiveDate, OneTimeTransaction, bool)`, the flag marking a recurring origin. -/
abbrev Entry := NaiveDate × OneTimeTransaction × Bool

/-- The comparator passed to `sort_by`:
`a.0.cmp(&b.0).then_with(|| a.1.created_at.cmp(&b.1.created_at))`. -/
def entryCmp (a b : Entry) : Ordering :=
  (NaiveDate.cmp a.1 b.1).then (natCmp a.2.1.created_at b.2.1.created_at)

/-- "Not greater" for the sort comparator. -/
def entryLE (a b : Entry) : Prop := entryCmp a b ≠ .gt

instance : DecidableRel entryLE :=
  fun a b => inferInstanceAs (Decidable (entryCmp a b ≠ .gt))

/-- `Vec::sort_by` with `entryCmp`: a stable sort by a total comparator.
`List.insertionSort` with the comparator's "not greater" relation is that
stable sort. -/
def sort_transactions (l : List Entry) : List Entry :=
  List.insertionSort entryLE l

/-- The body of the `loop` in `generate_recurring_transactions`, run on a
fuel argument: emit the clamped occurrence of the current month when it lies
in `(start_date, end_date]`, advance the pointer with `next_month`, stop when
the pointer's (year, month) exceeds `end_date`'s.  `next_month` advances
`month_index` by exactly one, so the fuel chosen in
`generate_recurring_transactions` is never exhausted before the stop test
fires. -/
def genMonths (recurring : RecurringTransaction) (start_date end_date : NaiveDate) :
    NaiveDate → Nat → List Entry
  | _, 0 => []
  | current_date, fuel + 1 =>
    let emitted :=
      match get_transaction_date_in_month current_date recurring.day_of_month with
      | some txn_date =>
        if start_date < txn_date ∧ txn_date ≤ end_date then
          [(txn_date,
            { id := recurring.id
              description := recurring.description
              amount := recurring.amount
              date := txn_date
              created_at := recurring.created_at }, true)]
        else []
      | none => []
    let next := next_month current_date
    if next.year > end_date.year ∨ (next.year = end_date.year ∧ next.month > end_date.month) then
      emitted
    else
      emitted ++ genMonths recurring start_date end_date next fuel

/-- `generate_recurring_transactions`: expand one recurring rule over the
window `(start_date, end_date]`. -/
def generate_recurring_transactions (recurring : RecurringTransaction)
    (start_date end_date : NaiveDate) : List Entry :=
  genMonths recurring start_date end_date start_date
    (max 1 (month_index end_date.val + 1 - month_index start_date.val).toNat)

/-- The sorted reconciliation vector `past_transactions` of Step 1 of
`project_cashflow`: active recurring rules expanded over
`(snapshot.date, today]`, plus one-time transactions with
`snapshot.date < date < today`. -/
def past_transactions (data : CashflowData) (snapshot_date today : NaiveDate) :
    List Entry :=
  sort_transactions
    (((data.recurring.filter fun r => r.active).flatMap fun r =>
        generate_recurring_transactions r snapshot_date today)
      ++ data.one_time.filterMap fun o =>
          if snapshot_date < o.date ∧ o.date < today then some (o.date, o, false) else none)

/-- The sorted projection vector `transactions` of Step 2 of
`project_cashflow`: active recurring rules expanded over
`(today, end_date]`, plus one-time transactions with
`today ≤ date ≤ end_date`. -/
def future_transactions (data : CashflowData) (today end_date : NaiveDate) :
    List Entry :=
  sort_transactions
    (((data.recurring.filter fun r => r.active).flatMap fun r =>
        generate_recurring_transactions r today end_date)
      ++ data.one_time.filterMap fun o =>
          if today ≤ o.date ∧ o.date ≤ end_date then some (o.date, o, false) else none)

/-- The reconciliation loop of Step 1: add every listed amount onto the
balance. -/
def apply_transactions (balance : Int) (l : List Entry) : Int :=
  l.foldl (fun b e => b + e.2.1.amount) balance

/-- Step 3 of `project_cashflow`: walk the sorted entries accumulating the
running balance; a recurring entry is rendered through the rule found by id
in `data.recurring` (skipped if none is found — unreachable for entries that
the engine itself generated); a one-time entry is rendered directly.
Returns the final balance and the projected rows. -/
def build_projected (data : CashflowData) (balance : Int) :
    List Entry → Int × List ProjectedTransaction
  | [] => (balance, [])
  | (date, txn, is_recurring) :: rest =>
    let b := balance + txn.amount
    let step := build_projected data b rest
    match
      if is_recurring then
        (data.recurring.find? fun r => r.id == txn.id).map
          fun r => ProjectedTransaction.from_recurring r date b
      else some (ProjectedTransaction.from_one_time txn b)
    with
    | some p => (step.1, p :: step.2)
    | none => (step.1, step.2)

/-- One day forward (`chrono` successor of a date). -/
def NaiveDate.next_day (d : NaiveDate) : NaiveDate :=
  if h : d.val.day < days_in_month d.val.year d.val.month then
    ⟨⟨d.val.year, d.val.month, d.val.day + 1⟩, by
      obtain ⟨h1, h2, h3, _⟩ := d.property
      refine ⟨h1, h2, ?_, ?_⟩
      · show 1 ≤ d.val.day + 1; omega
      · show d.val.day + 1 ≤ days_in_month d.val.year d.val.month; omega⟩
  else if h2 : d.val.month < 12 then
    ⟨⟨d.val.year, d.val.month + 1, 1⟩, by
      refine ⟨?_, ?_, ?_, ?_⟩
      · show 1 ≤ d.val.month + 1; omega
      · show d.val.month + 1 ≤ 12; omega
      · exact Nat.le_refl 1
      · show 1 ≤ days_in_month d.val.year (d.val.month + 1)
        unfold days_in_month
        split <;> first | decide | (split <;> decide)⟩
  else
    ⟨⟨d.val.year + 1, 1, 1⟩, by
      refine ⟨?_, ?_, ?_, ?_⟩
      · show (1:Nat) ≤ 1; decide
      · show (1:Nat) ≤ 12; decide
      · show (1:Nat) ≤ 1; decide
      · show (1:Nat) ≤ 31; decide⟩

/-- `today + Duration::days(days)` for a non-negative number of days. -/
def NaiveDate.add_days (d : NaiveDate) (days : Nat) : NaiveDate :=
  Nat.iterate NaiveDate.next_day days d

/-- `project_cashflow` from `src/projection/cashflow.rs`, with the clock read
`Local::now().date_naive()` made the explicit parameter `today`.
Returns `(starting_balance, today, projected)`, or `none` for the
"No balance snapshots found" error. -/
def project_cashflow (data : CashflowData) (days : Nat) (today : NaiveDate) :
    Option (Int × NaiveDate × List ProjectedTransaction) :=
  match find_latest_balance_snapshot data with
  | none => none
  | some snapshot =>
    let current_balance :=
      if snapshot.date < today then
        apply_transactions snapshot.balance (past_transactions data snapshot.date today)
      else snapshot.balance
    let end_date := today.add_days days
    let starting_balance := current_balance
    some (starting_balance, today,
      (build_projected data current_balance (future_transactions data today end_date)).2)

/-! ### Order and calendar toolkit -/

/-- The entry that the expansion loop emits for rule `r` on date `dt`. -/
def recurring_occurrence (r : RecurringTransaction) (dt : NaiveDate) : Entry :=
  (dt, { id := r.id
         description := r.description
         amount := r.amount
         date := dt
         created_at := r.created_at }, true)

/-- Linear key realising the chronological order on valid dates. -/
def dateKey (d : NaiveDate) : Int := d.val.year * 500 + d.val.month * 32 + d.val.day

/-! ### Concrete data for witnesses and counterexamples -/

def jan1 : NaiveDate := ⟨⟨2025, 1, 1⟩, by decide⟩
def jan5 : NaiveDate := ⟨⟨2025, 1, 5⟩, by decide⟩
def jan10 : NaiveDate := ⟨⟨2025, 1, 10⟩, by decide⟩
def jan15 : NaiveDate := ⟨⟨2025, 1, 15⟩, by decide⟩
def jan20 : NaiveDate := ⟨⟨2025, 1, 20⟩, by decide⟩
def jan31 : NaiveDate := ⟨⟨2025, 1, 31⟩, by decide⟩
def feb1 : NaiveDate := ⟨⟨2025, 2, 1⟩, by decide⟩
def feb28 : NaiveDate := ⟨⟨2025, 2, 28⟩, by decide⟩
def mar1 : NaiveDate := ⟨⟨2025, 3, 1⟩, by decide⟩
def mar5 : NaiveDate := ⟨⟨2025, 3, 5⟩, by decide⟩

def snap100 : BalanceSnapshot := ⟨0, jan1, 100, 0⟩
def ruleMid : RecurringTransaction := ⟨1, "r", 10, 15, true, 0⟩
def oneAnchor : OneTimeTransaction := ⟨2, "o", 5, jan15, 1⟩
def dataMain : CashflowData := ⟨[ruleMid], [oneAnchor], [snap100]⟩

def snapZero : BalanceSnapshot := ⟨0, jan1, 0, 0⟩
def oneJan10 : OneTimeTransaction := ⟨1, "a", 5, jan10, 0⟩
def dataClock : CashflowData := ⟨[], [oneJan10], [snapZero]⟩

def snapTieA : BalanceSnapshot := ⟨0, jan5, 1, 0⟩
def snapTieB : BalanceSnapshot := ⟨1, jan5, 2, 1⟩
def dataTie : CashflowData := ⟨[], [], [snapTieA, snapTieB]⟩

def ruleDay31 : RecurringTransaction := ⟨3, "f", -7, 31, true, 0⟩

def snapJan15 : BalanceSnapshot := ⟨0, jan15, 7, 0⟩
def oneOnSnap : OneTimeTransaction := ⟨1, "w", 3, jan15, 0⟩
def dataZeroH : CashflowData := ⟨[], [oneOnSnap], [snapJan15]⟩
def oneJan20 : OneTimeTransaction := ⟨1, "w", 3, jan20, 0⟩
def dataZeroH2 : CashflowData := ⟨[], [oneJan20], [snapJan15]⟩

def ruleDayZero : RecurringTransaction := ⟨4, "z", 1, 0, true, 0⟩

/-- Every month has at least one day. -/
theorem days_in_month_pos (y : Int) (m : Nat) : 1 ≤ days_in_month y m := by
  unfold days_in_month
  split <;> first | decide | (split <;> decide)

/-- No month has more than 31 days. -/
theorem days_in_month_le (y : Int) (m : Nat) : days_in_month y m ≤ 31 := by
  unfold days_in_month
  split <;> first | decide | (split <;> decide)

/-- Bounds every valid date satisfies. -/
theorem valid_bounds (d : NaiveDate) :
    1 ≤ d.val.month ∧ d.val.month ≤ 12 ∧ 1 ≤ d.val.day ∧ d.val.day ≤ 31 :=
  ⟨d.property.1, d.property.2.1, d.property.2.2.1,
    Nat.le_trans d.property.2.2.2 (days_in_month_le _ _)⟩

theorem intCmp_lt {a b : Int} : intCmp a b = .lt ↔ a < b := by
  unfold intCmp; split_ifs <;> simp_all <;> omega

theorem intCmp_eq {a b : Int} : intCmp a b = .eq ↔ a = b := by
  unfold intCmp; split_ifs <;> simp_all <;> omega

theorem intCmp_gt {a b : Int} : intCmp a b = .gt ↔ b < a := by
  unfold intCmp; split_ifs <;> simp_all <;> omega

theorem natCmp_lt {a b : Nat} : natCmp a b = .lt ↔ a < b := by
  unfold natCmp; split_ifs <;> simp_all

theorem natCmp_eq {a b : Nat} : natCmp a b = .eq ↔ a = b := by
  unfold natCmp; split_ifs <;> simp_all <;> omega

theorem natCmp_gt {a b : Nat} : natCmp a b = .gt ↔ b < a := by
  unfold natCmp; split_ifs <;> simp_all <;> omega

theorem ordThen_lt {o p : Ordering} : o.then p = .lt ↔ o = .lt ∨ (o = .eq ∧ p = .lt) := by
  cases o <;> simp [Ordering.then]

theorem ordThen_gt {o p : Ordering} : o.then p = .gt ↔ o = .gt ∨ (o = .eq ∧ p = .gt) := by
  cases o <;> simp [Ordering.then]

theorem date_cmp_lt (a b : NaiveDate) :
    NaiveDate.cmp a b = .lt ↔ dateKey a < dateKey b := by
  have ha := valid_bounds a
  have hb := valid_bounds b
  unfold NaiveDate.cmp NaiveDate.year NaiveDate.month NaiveDate.day
  rw [ordThen_lt, ordThen_lt, intCmp_lt, intCmp_eq, natCmp_lt, natCmp_eq, natCmp_lt]
  unfold dateKey
  omega

theorem date_cmp_gt (a b : NaiveDate) :
    NaiveDate.cmp a b = .gt ↔ dateKey b < dateKey a := by
  have ha := valid_bounds a
  have hb := valid_bounds b
  unfold NaiveDate.cmp NaiveDate.year NaiveDate.month NaiveDate.day
  rw [ordThen_gt, ordThen_gt, intCmp_gt, intCmp_eq, natCmp_gt, natCmp_eq, natCmp_gt]
  unfold dateKey
  omega

theorem date_cmp_eq (a b : NaiveDate) :
    NaiveDate.cmp a b = .eq ↔ dateKey a = dateKey b := by
  have hl := date_cmp_lt a b
  have hg := date_cmp_gt a b
  cases h : NaiveDate.cmp a b <;> simp_all <;> omega

theorem dateKey_inj {a b : NaiveDate} (h : dateKey a = dateKey b) : a = b := by
  have ha := valid_bounds a
  have hb := valid_bounds b
  unfold dateKey at h
  apply Subtype.ext
  have h1 : a.val.year = b.val.year := by omega
  have h2 : a.val.month = b.val.month := by omega
  have h3 : a.val.day = b.val.day := by omega
  cases hva : a.val
  cases hvb : b.val
  simp_all

theorem date_lt_iff (a b : NaiveDate) : a < b ↔ dateKey a < dateKey b :=
  date_cmp_lt a b

theorem date_le_iff (a b : NaiveDate) : a ≤ b ↔ dateKey a ≤ dateKey b := by
  show NaiveDate.cmp a b ≠ .gt ↔ _
  rw [Ne, date_cmp_gt]
  omega

theorem entryLE_iff (a b : Entry) :
    entryLE a b ↔
      dateKey a.1 < dateKey b.1 ∨
        (dateKey a.1 = dateKey b.1 ∧ a.2.1.created_at ≤ b.2.1.created_at) := by
  unfold entryLE entryCmp
  rw [Ne, ordThen_gt, date_cmp_gt, date_cmp_eq, natCmp_gt]
  omega

theorem sort_transactions_sorted (l : List Entry) :
    List.Sorted entryLE (sort_transactions l) := by
  have htrans : IsTrans Entry entryLE :=
    ⟨by intro a b c hab hbc; rw [entryLE_iff] at *; omega⟩
  have htotal : IsTotal Entry entryLE :=
    ⟨by intro a b; rw [entryLE_iff, entryLE_iff]; omega⟩
  exact List.sorted_insertionSort entryLE l

theorem mem_sort_transactions {e : Entry} {l : List Entry} :
    e ∈ sort_transactions l ↔ e ∈ l :=
  List.mem_insertionSort entryLE

theorem from_ymd_opt_val {y : Int} {m dd : Nat} {e : NaiveDate}
    (h : from_ymd_opt y m dd = some e) : e.val = ⟨y, m, dd⟩ := by
  unfold from_ymd_opt at h
  split at h
  · cases h; rfl
  · cases h

/-- `next_month` advances the month pointer by exactly one calendar month:
no month is ever skipped. -/
theorem month_index_next_month (d : NaiveDate) :
    month_index (next_month d).val = month_index d.val + 1 := by
  unfold next_month
  simp only [NaiveDate.year, NaiveDate.month, NaiveDate.day]
  split
  case isTrue h =>
    have h12 : d.val.month = 12 := h
    cases hm : from_ymd_opt (d.val.year + 1) 1 d.val.day with
    | some e =>
      have he := from_ymd_opt_val hm
      unfold month_index
      dsimp only
      rw [he]
      dsimp only
      omega
    | none =>
      unfold month_index
      dsimp only
      omega
  case isFalse h =>
    cases hm : from_ymd_opt d.val.year (d.val.month + 1) d.val.day with
    | some e =>
      have he := from_ymd_opt_val hm
      unfold month_index
      dsimp only
      rw [he]
      dsimp only
      omega
    | none =>
      unfold month_index
      dsimp only
      omega

/-- A strict chronological comparison never decreases the month pointer
position. -/
theorem month_index_le_of_lt {a b : NaiveDate} (h : a < b) :
    month_index a.val ≤ month_index b.val := by
  have ha := valid_bounds a
  have hb := valid_bounds b
  rw [date_lt_iff] at h
  unfold dateKey at h
  unfold month_index
  omega

theorem month_index_le_of_le {a b : NaiveDate} (h : a ≤ b) :
    month_index a.val ≤ month_index b.val := by
  have ha := valid_bounds a
  have hb := valid_bounds b
  rw [date_le_iff] at h
  unfold dateKey at h
  unfold month_index
  omega

/-- Valid dates with the same month pointer position share year and month. -/
theorem month_index_inj {a b : NaiveDate}
    (h : month_index a.val = month_index b.val) :
    a.val.year = b.val.year ∧ a.val.month = b.val.month := by
  have ha := valid_bounds a
  have hb := valid_bounds b
  unfold month_index at h
  omega

/-- The stop test of the expansion loop, stated on month pointer positions. -/
theorem break_cond_iff (next en : NaiveDate) :
    (next.year > en.year ∨ (next.year = en.year ∧ next.month > en.month)) ↔
      month_index en.val < month_index next.val := by
  have ha := valid_bounds next
  have hb := valid_bounds en
  unfold NaiveDate.year NaiveDate.month month_index
  omega

/-- The occurrence date computed in a month depends only on the pointer's
year and month. -/
theorem get_transaction_date_congr {a b : NaiveDate}
    (hy : a.val.year = b.val.year) (hm : a.val.month = b.val.month)
    (dom : Nat) :
    get_transaction_date_in_month a dom = get_transaction_date_in_month b dom := by
  unfold get_transaction_date_in_month NaiveDate.year NaiveDate.month
  rw [hy, hm]

/-- Shape of a successfully computed occurrence date. -/
theorem get_transaction_date_val {base : NaiveDate} {dom : Nat} {e : NaiveDate}
    (h : get_transaction_date_in_month base dom = some e) :
    e.val = ⟨base.val.year, base.val.month,
      min dom (days_in_month base.val.year base.val.month)⟩ :=
  from_ymd_opt_val h

/-- A rule with day-of-month 0 never yields an occurrence date. -/
theorem get_transaction_date_zero (base : NaiveDate) :
    get_transaction_date_in_month base 0 = none := by
  simp only [get_transaction_date_in_month, from_ymd_opt]
  split
  case isTrue h =>
    exact absurd h.2.2.1 (by simp)
  case isFalse h => rfl

/-- Everything the expansion loop emits is an occurrence of the rule, lies in
`(start, end]`, and is the clamped date of its own month. -/
theorem genMonths_mem {r : RecurringTransaction} {s en : NaiveDate} {e : Entry} :
    ∀ (fuel : Nat) (cur : NaiveDate), e ∈ genMonths r s en cur fuel →
      ∃ dt : NaiveDate, e = recurring_occurrence r dt ∧ s < dt ∧ dt ≤ en ∧
        get_transaction_date_in_month dt r.day_of_month = some dt := by
  have emitted_case :
      ∀ (cur txn_date : NaiveDate),
        get_transaction_date_in_month cur r.day_of_month = some txn_date →
        e ∈ (if s < txn_date ∧ txn_date ≤ en then [recurring_occurrence r txn_date] else []) →
        ∃ dt : NaiveDate, e = recurring_occurrence r dt ∧ s < dt ∧ dt ≤ en ∧
          get_transaction_date_in_month dt r.day_of_month = some dt := by
    intro cur txn_date hg hmem
    split at hmem
    case isTrue hcond =>
      rcases List.mem_singleton.mp hmem with rfl
      have hval := get_transaction_date_val hg
      refine ⟨txn_date, rfl, hcond.1, hcond.2, ?_⟩
      rw [get_transaction_date_congr (a := txn_date) (b := cur) (by rw [hval]) (by rw [hval])]
      exact hg
    case isFalse hcond => cases hmem
  intro fuel
  induction fuel with
  | zero => intro cur h; simp [genMonths] at h
  | succ n ih =>
    intro cur h
    simp only [genMonths] at h
    split at h
    case isTrue hbreak =>
      cases hg : get_transaction_date_in_month cur r.day_of_month with
      | none => rw [hg] at h; cases h
      | some txn_date =>
        rw [hg] at h
        exact emitted_case cur txn_date hg h
    case isFalse hbreak =>
      cases hg : get_transaction_date_in_month cur r.day_of_month with
      | none =>
        rw [hg] at h
        rw [List.nil_append] at h
        exact ih _ h
      | some txn_date =>
        rw [hg] at h
        rcases List.mem_append.mp h with h1 | h2
        · exact emitted_case cur txn_date hg h1
        · exact ih _ h2

/-- If the occurrence of rule `r` in the month of `dt` is `dt` itself, `dt`
lies in `(start, end]`, and the loop's pointer has not yet passed `dt`'s
month, then the loop emits `dt` (every month between the pointer and the end
is visited). -/
theorem genMonths_intro {r : RecurringTransaction} {s en dt : NaiveDate}
    (hget : get_transaction_date_in_month dt r.day_of_month = some dt)
    (hs : s < dt) (hen : dt ≤ en) :
    ∀ (fuel : Nat) (cur : NaiveDate),
      month_index en.val + 1 - month_index cur.val ≤ (fuel : Int) →
      month_index cur.val ≤ month_index dt.val →
      month_index dt.val ≤ month_index en.val →
      recurring_occurrence r dt ∈ genMonths r s en cur fuel := by
  intro fuel
  induction fuel with
  | zero =>
    intro cur hfuel hc hd
    exfalso
    simp only [Nat.cast_zero] at hfuel
    omega
  | succ n ih =>
    intro cur hfuel hc hd
    simp only [genMonths]
    by_cases hsame : month_index cur.val = month_index dt.val
    · obtain ⟨hy, hm⟩ := month_index_inj hsame
      have hcur : get_transaction_date_in_month cur r.day_of_month = some dt := by
        rw [get_transaction_date_congr (a := cur) (b := dt) hy hm]
        exact hget
      rw [hcur]
      split
      · dsimp only
        rw [if_pos ⟨hs, hen⟩]
        exact List.mem_singleton.mpr rfl
      · dsimp only
        rw [if_pos ⟨hs, hen⟩]
        exact List.mem_append_left _ (List.mem_singleton.mpr rfl)
    · have hlt : month_index cur.val < month_index dt.val := lt_of_le_of_ne hc hsame
      have hnext : month_index (next_month cur).val = month_index cur.val + 1 :=
        month_index_next_month cur
      have hnobreak :
          ¬((next_month cur).year > en.year ∨
            ((next_month cur).year = en.year ∧ (next_month cur).month > en.month)) := by
        rw [break_cond_iff]
        omega
      have hmem := ih (next_month cur) (by push_cast; omega) (by omega) hd
      rw [if_neg hnobreak]
      cases hg : get_transaction_date_in_month cur r.day_of_month with
      | none => rw [List.nil_append]; exact hmem
      | some txn_date => exact List.mem_append_right _ hmem

/-- The fuel chosen by `generate_recurring_transactions` covers every month
from the start pointer through the end month. -/
theorem generate_fuel_bound (s en : NaiveDate)
    (h : month_index s.val ≤ month_index en.val) :
    month_index en.val + 1 - month_index s.val ≤
      ((max 1 (month_index en.val + 1 - month_index s.val).toNat : Nat) : Int) := by
  have h2 := Nat.le_max_right 1 (month_index en.val + 1 - month_index s.val).toNat
  have h3 := Int.toNat_of_nonneg (a := month_index en.val + 1 - month_index s.val) (by omega)
  omega

/-- Membership characterisation for `generate_recurring_transactions`
(elimination direction). -/
theorem generate_mem {r : RecurringTransaction} {s en : NaiveDate} {e : Entry}
    (h : e ∈ generate_recurring_transactions r s en) :
    ∃ dt : NaiveDate, e = recurring_occurrence r dt ∧ s < dt ∧ dt ≤ en ∧
      get_transaction_date_in_month dt r.day_of_month = some dt :=
  genMonths_mem _ _ h

/-- Membership characterisation for `generate_recurring_transactions`
(introduction direction): an occurrence date inside `(start, end]` is
emitted. -/
theorem generate_intro {r : RecurringTransaction} {s en dt : NaiveDate}
    (hget : get_transaction_date_in_month dt r.day_of_month = some dt)
    (hs : s < dt) (hen : dt ≤ en) :
    recurring_occurrence r dt ∈ generate_recurring_transactions r s en := by
  have h1 := month_index_le_of_lt hs
  have h2 := month_index_le_of_le hen
  exact genMonths_intro hget hs hen _ s (generate_fuel_bound s en (by omega)) h1 h2

/-- An empty expansion window `(s, en]` with `en ≤ s` yields no occurrences. -/
theorem genMonths_nil_of_le {r : RecurringTransaction} {s en : NaiveDate} (h : en ≤ s) :
    ∀ (fuel : Nat) (cur : NaiveDate), genMonths r s en cur fuel = [] := by
  have hempty : ∀ txn_date : NaiveDate, ¬(s < txn_date ∧ txn_date ≤ en) := by
    intro txn hc
    obtain ⟨h1, h2⟩ := hc
    rw [date_le_iff] at h h2
    rw [date_lt_iff] at h1
    omega
  intro fuel
  induction fuel with
  | zero => intro cur; rfl
  | succ n ih =>
    intro cur
    simp only [genMonths]
    split
    · cases hg : get_transaction_date_in_month cur r.day_of_month with
      | none => rfl
      | some txn_date =>
        dsimp only
        rw [if_neg (hempty txn_date)]
    · cases hg : get_transaction_date_in_month cur r.day_of_month with
      | none => rw [List.nil_append]; exact ih _
      | some txn_date =>
        dsimp only
        rw [if_neg (hempty txn_date), List.nil_append]
        exact ih _

theorem generate_nil_of_le {r : RecurringTransaction} {s en : NaiveDate} (h : en ≤ s) :
    generate_recurring_transactions r s en = [] :=
  genMonths_nil_of_le h _ _

/-- A rule whose day-of-month is 0 expands to nothing: the clamped day
`min 0 daysInMonth = 0` is not a valid day, so every month is skipped. -/
theorem genMonths_nil_of_zero {r : RecurringTransaction} (h : r.day_of_month = 0)
    (s en : NaiveDate) :
    ∀ (fuel : Nat) (cur : NaiveDate), genMonths r s en cur fuel = [] := by
  intro fuel
  induction fuel with
  | zero => intro cur; rfl
  | succ n ih =>
    intro cur
    simp only [genMonths]
    rw [h, get_transaction_date_zero cur]
    split
    · rfl
    · rw [List.nil_append]; exact ih _

/-- Step 1's reconciliation loop adds exactly the sum of the listed amounts. -/
theorem apply_transactions_eq (b : Int) (l : List Entry) :
    apply_transactions b l = b + (l.map fun e => e.2.1.amount).sum := by
  induction l generalizing b with
  | nil => simp [apply_transactions]
  | cons e rest ih =>
    simp only [apply_transactions, List.foldl_cons] at *
    rw [ih]
    simp only [List.map_cons, List.sum_cons]
    ring

/-- With pairwise-distinct rule identifiers, looking a rule's own id up in
the rule list returns that rule. -/
theorem find_id_of_nodup {l : List RecurringTransaction} {r : RecurringTransaction}
    (hnodup : (l.map fun x => x.id).Nodup) (hmem : r ∈ l) :
    l.find? (fun x => x.id == r.id) = some r := by
  induction l with
  | nil => cases hmem
  | cons a rest ih =>
    rw [List.map_cons, List.nodup_cons] at hnodup
    rcases List.mem_cons.mp hmem with rfl | hr
    · rw [List.find?_cons_of_pos _ (by simp)]
    · by_cases hid : a.id = r.id
      · exact absurd (hid ▸ List.mem_map_of_mem (fun x => x.id) hr) hnodup.1
      · rw [List.find?_cons_of_neg _ (by simpa using hid)]
        exact ih hnodup.2 hr

/-- The final accumulator of Step 3 is the seed plus the sum of all entry
amounts (the balance is advanced before the id lookup, so even a skipped
entry contributes). -/
theorem build_projected_fst (data : CashflowData) (es : List Entry) :
    ∀ b : Int, (build_projected data b es).1 = b + (es.map fun e => e.2.1.amount).sum := by
  induction es with
  | nil => intro b; simp [build_projected]
  | cons e rest ih =>
    intro b
    obtain ⟨d, txn, flag⟩ := e
    simp only [build_projected]
    split
    · dsimp only
      rw [ih]
      simp only [List.map_cons, List.sum_cons]
      ring
    · dsimp only
      rw [ih]
      simp only [List.map_cons, List.sum_cons]
      ring

/-- Every projected row originates from an entry of the walked list: a
recurring-flagged entry yields a row with `is_one_time = false` dated at the
entry's date; a one-time entry yields its own row. -/
theorem build_projected_mem {data : CashflowData} {es : List Entry}
    {p : ProjectedTransaction} :
    ∀ b : Int, p ∈ (build_projected data b es).2 →
      ∃ e ∈ es,
        (e.2.2 = true ∧ p.is_one_time = false ∧ p.date = e.1) ∨
        (e.2.2 = false ∧ p.is_one_time = true ∧ p.date = e.2.1.date ∧
          p.amount = e.2.1.amount ∧ p.description = e.2.1.description) := by
  induction es with
  | nil => intro b h; simp [build_projected] at h
  | cons e rest ih =>
    intro b h
    obtain ⟨d, txn, flag⟩ := e
    simp only [build_projected] at h
    split at h
    case h_1 p0 heq =>
      rcases List.mem_cons.mp h with rfl | htail
      · cases flag with
        | true =>
          rw [if_pos rfl] at heq
          obtain ⟨r, hfind, hp⟩ := Option.map_eq_some'.mp heq
          refine ⟨(d, txn, true), List.mem_cons_self _ _, Or.inl ⟨rfl, ?_, ?_⟩⟩
          · rw [← hp]; rfl
          · rw [← hp]; rfl
        | false =>
          rw [if_neg (by simp)] at heq
          obtain rfl := Option.some.inj heq
          exact ⟨(d, txn, false), List.mem_cons_self _ _,
            Or.inr ⟨rfl, rfl, rfl, rfl, rfl⟩⟩
      · obtain ⟨e', he', hor⟩ := ih _ htail
        exact ⟨e', List.mem_cons_of_mem _ he', hor⟩
    case h_2 heq =>
      obtain ⟨e', he', hor⟩ := ih _ h
      exact ⟨e', List.mem_cons_of_mem _ he', hor⟩

/-- Every one-time entry of the walked list produces a projected row (the id
lookup can only skip recurring-flagged entries). -/
theorem build_projected_one_time_mem {data : CashflowData} {es : List Entry}
    {e : Entry} (he : e ∈ es) (hflag : e.2.2 = false) :
    ∀ b : Int, ∃ bb : Int,
      ProjectedTransaction.from_one_time e.2.1 bb ∈ (build_projected data b es).2 := by
  induction es with
  | nil => cases he
  | cons e0 rest ih =>
    intro b
    obtain ⟨d, txn, flag⟩ := e0
    rcases List.mem_cons.mp he with rfl | htail
    · cases flag with
      | true => simp at hflag
      | false =>
        refine ⟨b + txn.amount, ?_⟩
        simp only [build_projected]
        split
        case h_1 p0 heq =>
          rw [if_neg (by simp)] at heq
          obtain rfl := Option.some.inj heq
          exact List.mem_cons_self _ _
        case h_2 heq =>
          rw [if_neg (by simp)] at heq
          cases heq
    · obtain ⟨bb, hmem⟩ := ih htail (b + txn.amount)
      refine ⟨bb, ?_⟩
      simp only [build_projected]
      split
      · exact List.mem_cons_of_mem _ hmem
      · exact hmem

/-- Unfolding equation for one step of the projection walk when the row is
actually rendered. -/
theorem build_projected_cons_eq {data : CashflowData} {d : NaiveDate}
    {txn : OneTimeTransaction} {flag : Bool} {rest : List Entry} {b : Int}
    (p : ProjectedTransaction)
    (hp : (if flag then
            (data.recurring.find? fun r => r.id == txn.id).map
              fun r => ProjectedTransaction.from_recurring r d (b + txn.amount)
          else some (ProjectedTransaction.from_one_time txn (b + txn.amount))) = some p) :
    build_projected data b ((d, txn, flag) :: rest) =
      ((build_projected data (b + txn.amount) rest).1,
        p :: (build_projected data (b + txn.amount) rest).2) := by
  simp only [build_projected]
  split
  case h_1 q hq =>
    rw [hp] at hq
    cases Option.some.inj hq
    rfl
  case h_2 hq =>
    rw [hp] at hq
    cases hq

/-- When every recurring-flagged entry's id lookup succeeds with a rule of
the same amount (the situation for engine-generated entries under pairwise
distinct rule ids), the walk renders one row per entry, the rendered amounts
are the entry amounts, and the last row's running balance is the final
accumulator. -/
theorem build_projected_spec {data : CashflowData} {es : List Entry}
    (H : ∀ e ∈ es, e.2.2 = true →
      ∃ r, (data.recurring.find? fun x => x.id == e.2.1.id) = some r ∧
        r.amount = e.2.1.amount) :
    ∀ b : Int,
      ((build_projected data b es).2.map fun p => p.amount) =
        (es.map fun e => e.2.1.amount) ∧
      ((build_projected data b es).2 = [] ↔ es = []) ∧
      ∀ plast : ProjectedTransaction,
        (build_projected data b es).2.getLast? = some plast →
          plast.balance_after = (build_projected data b es).1 := by
  induction es with
  | nil =>
    intro b
    refine ⟨by simp [build_projected], by simp [build_projected], ?_⟩
    intro plast h
    simp [build_projected] at h
  | cons e rest ih =>
    intro b
    obtain ⟨d, txn, flag⟩ := e
    have Hrest : ∀ e ∈ rest, e.2.2 = true →
        ∃ r, (data.recurring.find? fun x => x.id == e.2.1.id) = some r ∧
          r.amount = e.2.1.amount :=
      fun e he => H e (List.mem_cons_of_mem _ he)
    obtain ⟨p, hp, hamt, hbal⟩ :
        ∃ p : ProjectedTransaction,
          (if flag then
            (data.recurring.find? fun r => r.id == txn.id).map
              fun r => ProjectedTransaction.from_recurring r d (b + txn.amount)
          else some (ProjectedTransaction.from_one_time txn (b + txn.amount))) = some p ∧
          p.amount = txn.amount ∧ p.balance_after = b + txn.amount := by
      cases flag with
      | true =>
        obtain ⟨r, hfind, hamt⟩ := H (d, txn, true) (List.mem_cons_self _ _) rfl
        refine ⟨ProjectedTransaction.from_recurring r d (b + txn.amount), ?_, hamt, rfl⟩
        rw [if_pos rfl, hfind]
        rfl
      | false =>
        exact ⟨ProjectedTransaction.from_one_time txn (b + txn.amount),
          by rw [if_neg (by simp)], rfl, rfl⟩
    rw [build_projected_cons_eq p hp]
    obtain ⟨ih1, ih2, ih3⟩ := ih Hrest (b + txn.amount)
    refine ⟨?_, ?_, ?_⟩
    · simp only [List.map_cons, ih1, hamt]
    · simp
    · intro plast hlast
      cases hrest : (build_projected data (b + txn.amount) rest).2 with
      | nil =>
        have hrestnil : rest = [] := ih2.mp hrest
        subst hrestnil
        rw [hrest] at hlast
        simp only [List.getLast?_singleton, Option.some.injEq] at hlast
        subst hlast
        rw [hbal]
        simp [build_projected]
      | cons q qs =>
        rw [hrest] at hlast
        rw [List.getLast?_cons_cons] at hlast
        apply ih3 plast
        rw [hrest]
        exact hlast

/-- The projected rows' dates form a sublist of the walked entries' dates
(entries are either rendered in place or skipped). -/
theorem build_projected_dates_sublist {data : CashflowData} {es : List Entry}
    (hshape : ∀ e ∈ es, e.2.2 = false → e.1 = e.2.1.date) :
    ∀ b : Int,
      List.Sublist ((build_projected data b es).2.map fun p => p.date)
        (es.map fun e => e.1) := by
  induction es with
  | nil => intro b; simp [build_projected]
  | cons e rest ih =>
    intro b
    obtain ⟨d, txn, flag⟩ := e
    have hrest := ih (fun e he => hshape e (List.mem_cons_of_mem _ he)) (b + txn.amount)
    simp only [build_projected]
    split
    case h_1 p0 heq =>
      have hdate : p0.date = d := by
        cases flag with
        | true =>
          rw [if_pos rfl] at heq
          obtain ⟨r, hfind, hp⟩ := Option.map_eq_some'.mp heq
          rw [← hp]
          rfl
        | false =>
          rw [if_neg (by simp)] at heq
          obtain rfl := Option.some.inj heq
          exact (hshape (d, txn, false) (List.mem_cons_self _ _) rfl).symm
      dsimp only
      rw [List.map_cons, List.map_cons, hdate]
      exact List.Sublist.cons₂ d hrest
    case h_2 heq =>
      dsimp only
      rw [List.map_cons]
      exact List.Sublist.cons d hrest

/-- Invariant of the `max_by_key` fold: it returns an element of the list
(or the seed), of maximal date key, positioned after every other element
attaining the maximum. -/
theorem foldl_max_spec (l : List BalanceSnapshot) :
    ∀ s : BalanceSnapshot,
      ∃ m, l.foldl max_by_date_step (some s) = some m ∧
        dateKey s.date ≤ dateKey m.date ∧
        (∀ t ∈ l, dateKey t.date ≤ dateKey m.date) ∧
        ((m = s ∧ ∀ t ∈ l, dateKey t.date < dateKey m.date) ∨
          ∃ pre post, l = pre ++ m :: post ∧
            ∀ t ∈ post, dateKey t.date < dateKey m.date) := by
  induction l with
  | nil =>
    intro s
    exact ⟨s, rfl, le_refl _, by simp, Or.inl ⟨rfl, by simp⟩⟩
  | cons t rest ih =>
    intro s
    rw [List.foldl_cons]
    by_cases hgt : NaiveDate.cmp s.date t.date = .gt
    · have hlt : dateKey t.date < dateKey s.date := (date_cmp_gt _ _).mp hgt
      have hstep : max_by_date_step (some s) t = some s := by
        simp [max_by_date_step, hgt]
      rw [hstep]
      obtain ⟨m, heq, hsle, hall, hdisj⟩ := ih s
      refine ⟨m, heq, hsle, ?_, ?_⟩
      · intro u hu
        rcases List.mem_cons.mp hu with rfl | hu2
        · omega
        · exact hall u hu2
      · rcases hdisj with ⟨rfl, hstrict⟩ | ⟨pre, post, hsplit, hpost⟩
        · refine Or.inl ⟨rfl, ?_⟩
          intro u hu
          rcases List.mem_cons.mp hu with rfl | hu2
          · omega
          · exact hstrict u hu2
        · exact Or.inr ⟨t :: pre, post, by rw [hsplit]; simp, hpost⟩
    · have hle : dateKey s.date ≤ dateKey t.date := by
        have hnot : ¬ dateKey t.date < dateKey s.date :=
          fun hc => hgt ((date_cmp_gt _ _).mpr hc)
        omega
      have hstep : max_by_date_step (some s) t = some t := by
        simp [max_by_date_step, hgt]
      rw [hstep]
      obtain ⟨m, heq, htle, hall, hdisj⟩ := ih t
      refine ⟨m, heq, by omega, ?_, ?_⟩
      · intro u hu
        rcases List.mem_cons.mp hu with rfl | hu2
        · exact htle
        · exact hall u hu2
      · rcases hdisj with ⟨rfl, hstrict⟩ | ⟨pre, post, hsplit, hpost⟩
        · exact Or.inr ⟨[], rest, rfl, hstrict⟩
        · exact Or.inr ⟨t :: pre, post, by rw [hsplit]; simp, hpost⟩

/-- The engine errors exactly on an empty snapshot list. -/
theorem find_latest_none_iff (data : CashflowData) :
    find_latest_balance_snapshot data = none ↔ data.balance_snapshots = [] := by
  unfold find_latest_balance_snapshot
  cases hl : data.balance_snapshots with
  | nil => simp
  | cons t rest =>
    rw [List.foldl_cons]
    have hstep : max_by_date_step none t = some t := rfl
    rw [hstep]
    obtain ⟨m, heq, -, -, -⟩ := foldl_max_spec rest t
    rw [heq]
    simp

/-- Membership in Step 2's merged vector: either an occurrence of an active
recurring rule over `(today, end_date]`, or a one-time transaction with
`today ≤ date ≤ end_date`. -/
theorem mem_future_iff {data : CashflowData} {today en : NaiveDate} {e : Entry} :
    e ∈ future_transactions data today en ↔
      ((∃ r ∈ data.recurring, r.active = true ∧
          e ∈ generate_recurring_transactions r today en) ∨
        (∃ o ∈ data.one_time, e = (o.date, o, false) ∧ today ≤ o.date ∧ o.date ≤ en)) := by
  unfold future_transactions
  rw [mem_sort_transactions, List.mem_append]
  apply or_congr
  · rw [List.mem_flatMap]
    constructor
    · rintro ⟨r, hr, he⟩
      rw [List.mem_filter] at hr
      exact ⟨r, hr.1, hr.2, he⟩
    · rintro ⟨r, hr, ha, he⟩
      exact ⟨r, List.mem_filter.mpr ⟨hr, ha⟩, he⟩
  · rw [List.mem_filterMap]
    constructor
    · rintro ⟨o, ho, hf⟩
      split at hf
      case isTrue hcond =>
        obtain rfl := Option.some.inj hf
        exact ⟨o, ho, rfl, hcond.1, hcond.2⟩
      case isFalse hcond => cases hf
    · rintro ⟨o, ho, rfl, h1, h2⟩
      exact ⟨o, ho, by rw [if_pos ⟨h1, h2⟩]⟩

/-- Membership in Step 1's merged vector: either an occurrence of an active
recurring rule over `(snapshot_date, today]`, or a one-time transaction with
`snapshot_date < date < today` (both bounds strict). -/
theorem mem_past_iff {data : CashflowData} {snapshot_date today : NaiveDate} {e : Entry} :
    e ∈ past_transactions data snapshot_date today ↔
      ((∃ r ∈ data.recurring, r.active = true ∧
          e ∈ generate_recurring_transactions r snapshot_date today) ∨
        (∃ o ∈ data.one_time, e = (o.date, o, false) ∧
          snapshot_date < o.date ∧ o.date < today)) := by
  unfold past_transactions
  rw [mem_sort_transactions, List.mem_append]
  apply or_congr
  · rw [List.mem_flatMap]
    constructor
    · rintro ⟨r, hr, he⟩
      rw [List.mem_filter] at hr
      exact ⟨r, hr.1, hr.2, he⟩
    · rintro ⟨r, hr, ha, he⟩
      exact ⟨r, List.mem_filter.mpr ⟨hr, ha⟩, he⟩
  · rw [List.mem_filterMap]
    constructor
    · rintro ⟨o, ho, hf⟩
      split at hf
      case isTrue hcond =>
        obtain rfl := Option.some.inj hf
        exact ⟨o, ho, rfl, hcond.1, hcond.2⟩
      case isFalse hcond => cases hf
    · rintro ⟨o, ho, rfl, h1, h2⟩
      exact ⟨o, ho, by rw [if_pos ⟨h1, h2⟩]⟩

/-- One day forward strictly increases the date key. -/
theorem dateKey_next_day (d : NaiveDate) : dateKey d < dateKey d.next_day := by
  have hb := valid_bounds d
  unfold NaiveDate.next_day
  split
  case isTrue h =>
    unfold dateKey
    dsimp only
    omega
  case isFalse h =>
    split
    case isTrue h2 =>
      unfold dateKey
      dsimp only
      omega
    case isFalse h2 =>
      have hm : d.val.month ≤ 12 := valid_bounds d |>.2.1
      unfold dateKey
      dsimp only
      omega

theorem dateKey_add_days : ∀ (n : Nat) (d : NaiveDate),
    dateKey d ≤ dateKey (d.add_days n) := by
  intro n
  induction n with
  | zero => intro d; exact le_refl _
  | succ k ih =>
    intro d
    have h1 := dateKey_next_day d
    have h2 := ih d.next_day
    have hstep : d.add_days (k + 1) = d.next_day.add_days k := rfl
    rw [hstep]
    omega

/-- The projection window's end is never before the anchor date. -/
theorem add_days_ge (d : NaiveDate) (n : Nat) : d ≤ d.add_days n :=
  (date_le_iff _ _).mpr (dateKey_add_days n d)

/-- Sorted entry lists have non-decreasing dates. -/
theorem entryLE_dateKey {a b : Entry} (h : entryLE a b) : dateKey a.1 ≤ dateKey b.1 := by
  rw [entryLE_iff] at h
  omega

theorem date_le_refl (d : NaiveDate) : d ≤ d :=
  (date_le_iff d d).mpr (le_refl _)

/-- Projection of a successful `project_cashflow` run onto its parts. -/
theorem project_cashflow_some {data : CashflowData} {days : Nat} {today : NaiveDate}
    {sb : Int} {td : NaiveDate} {pr : List ProjectedTransaction}
    (h : project_cashflow data days today = some (sb, td, pr)) :
    ∃ snapshot, find_latest_balance_snapshot data = some snapshot ∧
      td = today ∧
      sb = (if snapshot.date < today then
              apply_transactions snapshot.balance
                (past_transactions data snapshot.date today)
            else snapshot.balance) ∧
      pr = (build_projected data sb
        (future_transactions data today (today.add_days days))).2 := by
  unfold project_cashflow at h
  cases hf : find_latest_balance_snapshot data with
  | none => rw [hf] at h; cases h
  | some snapshot =>
    rw [hf] at h
    rw [Option.some.injEq, Prod.mk.injEq, Prod.mk.injEq] at h
    obtain ⟨h1, h2, h3⟩ := h
    exact ⟨snapshot, rfl, h2.symm, h1.symm, by rw [← h3, ← h1]⟩

/-- One-time entries of the merged vectors carry their own date in the first
component. -/
theorem future_shape {data : CashflowData} {today en : NaiveDate} :
    ∀ e ∈ future_transactions data today en, e.2.2 = false → e.1 = e.2.1.date := by
  intro e he hflag
  rcases mem_future_iff.mp he with ⟨r, _, _, hgen⟩ | ⟨o, _, rfl, _, _⟩
  · obtain ⟨dt, rfl, -, -, -⟩ := generate_mem hgen
    simp [recurring_occurrence] at hflag
  · rfl

/-- The projected rows of a run are in non-decreasing date order. -/
theorem projected_dates_pairwise (data : CashflowData) (b : Int)
    (today en : NaiveDate) :
    List.Pairwise (fun p q : ProjectedTransaction => p.date ≤ q.date)
      (build_projected data b (future_transactions data today en)).2 := by
  have hsorted : List.Sorted entryLE (future_transactions data today en) := by
    unfold future_transactions
    exact sort_transactions_sorted _
  have hdates :
      List.Pairwise (fun a c : NaiveDate => a ≤ c)
        ((future_transactions data today en).map fun e => e.1) := by
    rw [List.pairwise_map]
    exact hsorted.imp fun hab => (date_le_iff _ _).mpr (entryLE_dateKey hab)
  have hsub :=
    @build_projected_dates_sublist data (future_transactions data today en)
      (@future_shape data today en) b
  have := hdates.sublist hsub
  rwa [List.pairwise_map] at this

/-- Every projected row of a run is dated on or after the anchor date. -/
theorem projected_dates_lower_bound (data : CashflowData) (b : Int)
    (today en : NaiveDate) :
    ∀ p ∈ (build_projected data b (future_transactions data today en)).2,
      today ≤ p.date := by
  intro p hp
  obtain ⟨e, he, hor⟩ := build_projected_mem b hp
  rcases hor with ⟨hflag, -, hdate⟩ | ⟨hflag, -, hdate, -, -⟩
  · rcases mem_future_iff.mp he with ⟨r, -, -, hgen⟩ | ⟨o, -, rfl, -, -⟩
    · obtain ⟨dt, rfl, hlt, -, -⟩ := generate_mem hgen
      rw [hdate]
      rw [date_le_iff]
      rw [date_lt_iff] at hlt
      exact le_of_lt hlt
    · simp [recurring_occurrence] at hflag
  · rcases mem_future_iff.mp he with ⟨r, -, -, hgen⟩ | ⟨o, -, rfl, h1, -⟩
    · obtain ⟨dt, rfl, -, -, -⟩ := generate_mem hgen
      simp [recurring_occurrence] at hflag
    · rw [hdate]
      exact h1

/-- C8: the projection fails with `NoBalanceAnchor` (modelled as `none`) if
and only if the ledger's snapshot set is empty, regardless of what recurring
rules or one-time transactions the ledger contains; with at least one
snapshot it returns a result. -/
theorem C8_no_balance_anchor_iff (data : CashflowData) (days : Nat)
    (today : NaiveDate) :
    project_cashflow data days today = none ↔ data.balance_snapshots = [] := by
  rw [← find_latest_none_iff]
  unfold project_cashflow
  cases hf : find_latest_balance_snapshot data with
  | none => simp
  | some snapshot => simp

/-- C10: a recurring rule whose day-of-month field is 0 expands to the empty
sequence over every interval, without failing: `min(0, daysInMonth) = 0` is
not a valid day, so every month is silently skipped. -/
theorem C10_day_of_month_zero (r : RecurringTransaction) (s en : NaiveDate)
    (h : r.day_of_month = 0) :
    generate_recurring_transactions r s en = [] := by
  unfold generate_recurring_transactions
  exact genMonths_nil_of_zero h s en _ _

theorem C10_day_of_month_zero_witness :
    ruleDayZero.day_of_month = 0 ∧
      generate_recurring_transactions ruleDayZero jan1 mar5 = [] :=
  ⟨by decide, C10_day_of_month_zero ruleDayZero jan1 mar5 (by decide)⟩

/-- C9 counterexample: a pointer on January 31 stepping into 28-day February
resolves to February 1 — a day inside the short month itself — not to the
1st of the short month's successor (March 1), contrary to the claim. -/
theorem C9_pointer_skip_counterexample :
    next_month jan31 = feb1 ∧ next_month jan31 ≠ mar1 := by
  constructor
  · decide
  · decide

/-- C9 (amended): when the pointer's day number does not exist in the
following month, the pointer falls back to day 1 of that following month
itself; the advance always moves by exactly one calendar month, so no month
is ever skipped — the pointer's day is either preserved or clamped to 1. -/
theorem C9_pointer_no_skip (d : NaiveDate) :
    month_index (next_month d).val = month_index d.val + 1 ∧
      ((next_month d).val.day = d.val.day ∨ (next_month d).val.day = 1) := by
  refine ⟨month_index_next_month d, ?_⟩
  unfold next_month
  simp only [NaiveDate.year, NaiveDate.month, NaiveDate.day]
  split
  · cases hm : from_ymd_opt (d.val.year + 1) 1 d.val.day with
    | some e =>
      left
      rw [from_ymd_opt_val hm]
    | none => right; rfl
  · cases hm : from_ymd_opt d.val.year (d.val.month + 1) d.val.day with
    | some e =>
      left
      rw [from_ymd_opt_val hm]
    | none => right; rfl

/-- C5 counterexample: two snapshots share the maximal date; the resolver
returns the second (later-positioned) one, not the first maximum found. -/
theorem C5_tie_counterexample :
    snapTieA.date = snapTieB.date ∧ snapTieB ≠ snapTieA ∧
      find_latest_balance_snapshot dataTie = some snapTieB := by
  refine ⟨by decide, by decide, by decide⟩

/-- C5 (amended): for every non-empty snapshot set the resolver returns a
snapshot with the maximal date, and among several sharing that maximal date
it returns the LAST one in input order: every later-positioned snapshot has
a strictly smaller date. -/
theorem C5_latest_is_last_max (data : CashflowData)
    (hne : data.balance_snapshots ≠ []) :
    ∃ m pre post,
      find_latest_balance_snapshot data = some m ∧
      data.balance_snapshots = pre ++ m :: post ∧
      (∀ t ∈ data.balance_snapshots, t.date ≤ m.date) ∧
      ∀ t ∈ post, t.date < m.date := by
  cases hl : data.balance_snapshots with
  | nil => exact absurd hl hne
  | cons t rest =>
    obtain ⟨m, heq, htle, hall, hdisj⟩ := foldl_max_spec rest t
    have hfind : find_latest_balance_snapshot data = some m := by
      unfold find_latest_balance_snapshot
      rw [hl, List.foldl_cons]
      exact heq
    rcases hdisj with ⟨rfl, hstrict⟩ | ⟨pre, post, hsplit, hpost⟩
    · refine ⟨m, [], rest, hfind, rfl, ?_, ?_⟩
      · intro u hu
        rw [date_le_iff]
        rcases List.mem_cons.mp hu with rfl | hu2
        · exact le_refl _
        · exact hall u hu2
      · intro u hu
        rw [date_lt_iff]
        exact hstrict u hu
    · refine ⟨m, t :: pre, post, hfind, by rw [hsplit]; rfl, ?_, ?_⟩
      · intro u hu
        rw [date_le_iff]
        rcases List.mem_cons.mp hu with rfl | hu2
        · exact htle
        · exact hall u hu2
      · intro u hu
        rw [date_lt_iff]
        exact hpost u hu

theorem C5_latest_is_last_max_witness :
    dataTie.balance_snapshots ≠ [] ∧
      ∃ m pre post,
        find_latest_balance_snapshot dataTie = some m ∧
        dataTie.balance_snapshots = pre ++ m :: post ∧
        (∀ t ∈ dataTie.balance_snapshots, t.date ≤ m.date) ∧
        ∀ t ∈ post, t.date < m.date :=
  ⟨by decide, C5_latest_is_last_max dataTie (by decide)⟩

set_option maxRecDepth 8000 in
/-- C4 counterexample: with the clock value modelled as an input, two runs on
the same ledger and horizon but different clock dates give different outputs
— different starting balances and different projected rows — so the engine's
output is not independent of the clock, and the anchor date is not a
caller-injected parameter in the code (`today = Local::now().date_naive()`
inside `project_cashflow`). -/
theorem C4_clock_counterexample :
    project_cashflow dataClock 30 jan1 =
      some (0, jan1, [ProjectedTransaction.from_one_time oneJan10 5]) ∧
    project_cashflow dataClock 30 feb1 = some (5, feb1, []) ∧
    project_cashflow dataClock 30 jan1 ≠ project_cashflow dataClock 30 feb1 := by
  refine ⟨by decide, by decide, by decide⟩

/-- C4 (amended): `project_cashflow` reads the clock itself; modelling the
clock date as an explicit input, the engine is a pure function of (ledger,
horizon, clock date): two runs agreeing on the clock date produce identical
output, and the anchor date the engine returns is exactly the clock date —
but the output does depend on that clock date (see the counterexample). -/
theorem C4_clock_determinism (data : CashflowData) (days : Nat)
    (t1 t2 : NaiveDate) (hclock : t1 = t2) :
    project_cashflow data days t1 = project_cashflow data days t2 ∧
    ∀ sb td pr, project_cashflow data days t1 = some (sb, td, pr) → td = t1 := by
  subst hclock
  refine ⟨rfl, ?_⟩
  intro sb td pr h
  obtain ⟨snapshot, -, htd, -, -⟩ := project_cashflow_some h
  exact htd

set_option maxRecDepth 8000 in
theorem C4_clock_determinism_witness :
    jan1 = jan1 ∧
      project_cashflow dataClock 30 jan1 = project_cashflow dataClock 30 jan1 ∧
      jan1 = jan1 :=
  ⟨rfl, (C4_clock_determinism dataClock 30 jan1 jan1 rfl).1,
    (C4_clock_determinism dataClock 30 jan1 jan1 rfl).2 0 jan1
      [ProjectedTransaction.from_one_time oneJan10 5] (by decide)⟩

/-- C7 counterexample: anchor equal to the latest snapshot's date and
horizon 0, but a one-time transaction dated exactly on the anchor date still
appears in the projected sequence, which is therefore not empty. -/
theorem C7_zero_horizon_counterexample :
    find_latest_balance_snapshot dataZeroH = some snapJan15 ∧
    snapJan15.date = jan15 ∧
    project_cashflow dataZeroH 0 jan15 =
      some (7, jan15, [ProjectedTransaction.from_one_time oneOnSnap 10]) := by
  refine ⟨by decide, by decide, by decide⟩

/-- C7 (amended): with horizon 0 and the anchor date equal to the latest
snapshot's date, the starting balance is the snapshot balance, and the
projected sequence is empty provided no one-time transaction is dated
exactly on the anchor date (such a transaction still appears). -/
theorem C7_zero_horizon (data : CashflowData) (snapshot : BalanceSnapshot)
    (today : NaiveDate)
    (hsnap : find_latest_balance_snapshot data = some snapshot)
    (htoday : today = snapshot.date)
    (hno : ∀ o ∈ data.one_time, o.date ≠ today) :
    project_cashflow data 0 today = some (snapshot.balance, today, []) := by
  subst htoday
  unfold project_cashflow
  rw [hsnap]
  dsimp only
  have hnlt : ¬ snapshot.date < snapshot.date := by
    rw [date_lt_iff]; omega
  rw [if_neg hnlt]
  have hend : snapshot.date.add_days 0 = snapshot.date := rfl
  have hfut : future_transactions data snapshot.date (snapshot.date.add_days 0) = [] := by
    rw [hend]
    unfold future_transactions
    have h1 : ((data.recurring.filter fun r => r.active).flatMap fun r =>
        generate_recurring_transactions r snapshot.date snapshot.date) = [] := by
      rw [List.flatMap_eq_nil_iff]
      intro r hr
      exact generate_nil_of_le (date_le_refl _)
    have h2 : (data.one_time.filterMap fun o =>
        if snapshot.date ≤ o.date ∧ o.date ≤ snapshot.date
        then some (o.date, o, false) else none) = [] := by
      rw [List.filterMap_eq_nil_iff]
      intro o ho
      rw [if_neg]
      rintro ⟨hle1, hle2⟩
      apply hno o ho
      rw [date_le_iff] at hle1 hle2
      exact dateKey_inj (by omega)
    rw [h1, h2]
    rfl
  rw [hfut]
  rfl

theorem C7_zero_horizon_witness :
    find_latest_balance_snapshot dataZeroH2 = some snapJan15 ∧
      jan15 = snapJan15.date ∧
      (∀ o ∈ dataZeroH2.one_time, o.date ≠ jan15) ∧
      project_cashflow dataZeroH2 0 jan15 = some (snapJan15.balance, jan15, []) :=
  ⟨by decide, by decide, by decide,
    C7_zero_horizon dataZeroH2 snapJan15 jan15 (by decide) (by decide) (by decide)⟩

/-- C3: for every ledger, anchor date and horizon, the merged projection
vector is sorted by (date ascending, creation timestamp ascending), and the
projected output rows are consequently in non-decreasing date order. -/
theorem C3_projection_ordering (data : CashflowData) (days : Nat)
    (today : NaiveDate) :
    List.Sorted entryLE (future_transactions data today (today.add_days days)) ∧
    ∀ sb td pr, project_cashflow data days today = some (sb, td, pr) →
      List.Pairwise (fun p q : ProjectedTransaction => p.date ≤ q.date) pr := by
  constructor
  · unfold future_transactions
    exact sort_transactions_sorted _
  · intro sb td pr h
    obtain ⟨snapshot, -, -, -, hpr⟩ := project_cashflow_some h
    rw [hpr]
    exact projected_dates_pairwise data sb today (today.add_days days)

set_option maxRecDepth 8000 in
theorem C3_projection_ordering_witness :
    List.Sorted entryLE (future_transactions dataMain jan15 (jan15.add_days 30)) ∧
      List.Pairwise (fun p q : ProjectedTransaction => p.date ≤ q.date)
        [ProjectedTransaction.from_one_time oneAnchor 115] :=
  ⟨(C3_projection_ordering dataMain 30 jan15).1,
    (C3_projection_ordering dataMain 30 jan15).2 110 jan15
      [ProjectedTransaction.from_one_time oneAnchor 115] (by decide)⟩

/-- C2: conservation — when the ledger's recurring-rule identifiers are
pairwise distinct and the projected sequence is non-empty, the last
projected row's `balance_after` minus the starting balance equals the sum of
the projected amounts. -/
theorem C2_conservation (data : CashflowData) (days : Nat) (today : NaiveDate)
    (sb : Int) (td : NaiveDate) (pr : List ProjectedTransaction)
    (plast : ProjectedTransaction)
    (hids : (data.recurring.map fun r => r.id).Nodup)
    (hproj : project_cashflow data days today = some (sb, td, pr))
    (hlast : pr.getLast? = some plast) :
    plast.balance_after - sb = (pr.map fun p => p.amount).sum := by
  obtain ⟨snapshot, -, -, -, hpr⟩ := project_cashflow_some hproj
  have H : ∀ e ∈ future_transactions data today (today.add_days days),
      e.2.2 = true →
        ∃ r, (data.recurring.find? fun x => x.id == e.2.1.id) = some r ∧
          r.amount = e.2.1.amount := by
    intro e he hflag
    rcases mem_future_iff.mp he with ⟨r, hr, -, hgen⟩ | ⟨o, -, rfl, -, -⟩
    · obtain ⟨dt, rfl, -, -, -⟩ := generate_mem hgen
      exact ⟨r, find_id_of_nodup hids hr, rfl⟩
    · cases hflag
  obtain ⟨hmap, -, hlastbal⟩ := build_projected_spec H sb
  rw [hpr] at hlast ⊢
  rw [hmap]
  have hfst := build_projected_fst data
    (future_transactions data today (today.add_days days)) sb
  rw [hlastbal plast hlast, hfst]
  ring

set_option maxRecDepth 8000 in
theorem C2_conservation_witness :
    (ProjectedTransaction.from_one_time oneAnchor 115).balance_after - 110 =
      ([ProjectedTransaction.from_one_time oneAnchor 115].map fun p => p.amount).sum :=
  C2_conservation dataMain 30 jan15 110 jan15
    [ProjectedTransaction.from_one_time oneAnchor 115]
    (ProjectedTransaction.from_one_time oneAnchor 115)
    (by decide) (by decide) (by decide)

/-- C6: a rule targeting day 31 expanded over a window that strictly
contains a February produces an occurrence on the last day of that February
(the 28th, or the 29th in a leap year) — never skipped, and every generated
occurrence lying in that February is exactly that clamped date (never rolled
into March). -/
theorem C6_february_clamping (r : RecurringTransaction) (s en : NaiveDate)
    (y : Int) (febFirst febLast : NaiveDate)
    (hdom : r.day_of_month = 31)
    (hfirst : from_ymd_opt y 2 1 = some febFirst)
    (hlast : from_ymd_opt y 2 (days_in_month y 2) = some febLast)
    (hs : s < febFirst) (hen : febLast ≤ en) :
    recurring_occurrence r febLast ∈ generate_recurring_transactions r s en ∧
    febLast.val.year = y ∧ febLast.val.month = 2 ∧
    febLast.val.day = (if isLeapYear y then 29 else 28) ∧
    ∀ e ∈ generate_recurring_transactions r s en,
      e.1.val.year = y → e.1.val.month = 2 → e.1 = febLast := by
  have hlastval := from_ymd_opt_val hlast
  have hfirstval := from_ymd_opt_val hfirst
  have hdim : days_in_month y 2 = if isLeapYear y then 29 else 28 := rfl
  have hmin : min r.day_of_month (days_in_month y 2) = days_in_month y 2 := by
    rw [hdom]
    exact Nat.min_eq_right (days_in_month_le y 2)
  have hget : get_transaction_date_in_month febLast r.day_of_month = some febLast := by
    unfold get_transaction_date_in_month NaiveDate.year NaiveDate.month
    rw [hlastval]
    dsimp only
    rw [hmin]
    exact hlast
  have hsf : s < febLast := by
    have hpos := days_in_month_pos y 2
    rw [date_lt_iff] at hs ⊢
    unfold dateKey at hs ⊢
    rw [hlastval]
    rw [hfirstval] at hs
    dsimp only at hs ⊢
    omega
  refine ⟨generate_intro hget hsf hen, by rw [hlastval], by rw [hlastval], ?_, ?_⟩
  · rw [hlastval]
    dsimp only
    exact hdim
  · intro e he hy hm
    obtain ⟨dt, rfl, -, -, hdtget⟩ := generate_mem he
    have hy' : dt.val.year = y := hy
    have hm' : dt.val.month = 2 := hm
    have hdtval := get_transaction_date_val hdtget
    apply Subtype.ext
    show dt.val = febLast.val
    rw [hdtval, hlastval, hy', hm', hdom,
      Nat.min_eq_right (days_in_month_le y 2)]

set_option maxRecDepth 8000 in
theorem C6_february_clamping_witness :
    ruleDay31.day_of_month = 31 ∧
      from_ymd_opt 2025 2 1 = some feb1 ∧
      from_ymd_opt 2025 2 (days_in_month 2025 2) = some feb28 ∧
      jan31 < feb1 ∧ feb28 ≤ mar5 ∧
      (recurring_occurrence ruleDay31 feb28 ∈
          generate_recurring_transactions ruleDay31 jan31 mar5 ∧
        feb28.val.year = 2025 ∧ feb28.val.month = 2 ∧
        feb28.val.day = (if isLeapYear 2025 then 29 else 28) ∧
        ∀ e ∈ generate_recurring_transactions ruleDay31 jan31 mar5,
          e.1.val.year = 2025 → e.1.val.month = 2 → e.1 = feb28) :=
  ⟨by decide, by decide, by decide, by decide, by decide,
    C6_february_clamping ruleDay31 jan31 mar5 2025 feb1 feb28
      (by decide) (by decide) (by decide) (by decide) (by decide)⟩

/-- C1: anchor-date asymmetry.  When the latest snapshot predates the anchor
date, a recurring occurrence falling exactly on the anchor date is folded
into the starting balance (its entry is in the reconciliation vector, whose
amounts are summed onto the snapshot balance) and never appears as a
recurring row in the projected sequence; a one-time transaction dated
exactly on the anchor date is excluded from the reconciliation vector and
appears in the projected sequence, whose first row is dated on the anchor
date. -/
theorem C1_anchor_asymmetry (data : CashflowData) (days : Nat)
    (today : NaiveDate) (snapshot : BalanceSnapshot)
    (r : RecurringTransaction) (o : OneTimeTransaction)
    (hsnap : find_latest_balance_snapshot data = some snapshot)
    (hlt : snapshot.date < today)
    (hr : r ∈ data.recurring) (hact : r.active = true)
    (hocc : get_transaction_date_in_month today r.day_of_month = some today)
    (ho : o ∈ data.one_time) (hod : o.date = today) :
    ∃ pr, project_cashflow data days today =
        some (snapshot.balance +
            ((past_transactions data snapshot.date today).map
              fun e => e.2.1.amount).sum,
          today, pr) ∧
      recurring_occurrence r today ∈ past_transactions data snapshot.date today ∧
      (∀ p ∈ pr, p.is_one_time = false → p.date ≠ today) ∧
      (o.date, o, false) ∉ past_transactions data snapshot.date today ∧
      (∃ p ∈ pr, p.is_one_time = true ∧ p.date = today ∧
        p.description = o.description ∧ p.amount = o.amount) ∧
      ∀ phead, pr.head? = some phead → phead.date = today := by
  have hproj0 : project_cashflow data days today =
      some (apply_transactions snapshot.balance
          (past_transactions data snapshot.date today),
        today,
        (build_projected data
          (apply_transactions snapshot.balance
            (past_transactions data snapshot.date today))
          (future_transactions data today (today.add_days days))).2) := by
    unfold project_cashflow
    rw [hsnap]
    dsimp only
    rw [if_pos hlt]
  rw [apply_transactions_eq] at hproj0
  have hein : (o.date, o, false) ∈
      future_transactions data today (today.add_days days) := by
    apply mem_future_iff.mpr
    right
    exact ⟨o, ho, rfl, by rw [hod]; exact date_le_refl today,
      by rw [hod]; exact add_days_ge today days⟩
  refine ⟨_, hproj0, ?_, ?_, ?_, ?_, ?_⟩
  · exact mem_past_iff.mpr
      (Or.inl ⟨r, hr, hact, generate_intro hocc hlt (date_le_refl today)⟩)
  · intro p hp hione
    obtain ⟨e, he, hor⟩ := build_projected_mem _ hp
    rcases hor with ⟨hflag, -, hdate⟩ | ⟨-, hione2, -, -, -⟩
    · rcases mem_future_iff.mp he with ⟨r', -, -, hgen⟩ | ⟨o', -, rfl, -, -⟩
      · obtain ⟨dt, rfl, hlt', -, -⟩ := generate_mem hgen
        have hdate' : p.date = dt := hdate
        intro hEq
        rw [date_lt_iff] at hlt'
        have hk := congrArg dateKey (hdate'.symm.trans hEq)
        omega
      · cases hflag
    · intro hEq
      rw [hione] at hione2
      cases hione2
  · intro hmem
    rcases mem_past_iff.mp hmem with ⟨r', -, -, hgen⟩ | ⟨o', -, heq, -, h2⟩
    · obtain ⟨dt, heq2, -, -, -⟩ := generate_mem hgen
      have : (false : Bool) = true := congrArg (fun e : Entry => e.2.2) heq2
      cases this
    · have ho' : o = o' := congrArg (fun e : Entry => e.2.1) heq
      rw [← ho', hod] at h2
      rw [date_lt_iff] at h2
      omega
  · obtain ⟨bb, hmem⟩ := build_projected_one_time_mem hein rfl _
    exact ⟨ProjectedTransaction.from_one_time o bb, hmem, rfl, hod, rfl, rfl⟩
  · intro phead hhead
    obtain ⟨bb, hmem0⟩ := build_projected_one_time_mem hein rfl
      (snapshot.balance +
        ((past_transactions data snapshot.date today).map
          fun e => e.2.1.amount).sum)
    have hub := projected_dates_lower_bound data
      (snapshot.balance +
        ((past_transactions data snapshot.date today).map
          fun e => e.2.1.amount).sum)
      today (today.add_days days)
    have hpw := projected_dates_pairwise data
      (snapshot.balance +
        ((past_transactions data snapshot.date today).map
          fun e => e.2.1.amount).sum)
      today (today.add_days days)
    cases hl : (build_projected data
        (snapshot.balance +
          ((past_transactions data snapshot.date today).map
            fun e => e.2.1.amount).sum)
        (future_transactions data today (today.add_days days))).2 with
    | nil => rw [hl] at hhead; cases hhead
    | cons q qs =>
      rw [hl] at hhead hmem0
      rw [List.head?_cons] at hhead
      obtain rfl := (Option.some.inj hhead).symm
      rw [hl] at hpw hub
      have hq_ge : today ≤ phead.date := hub phead (List.mem_cons_self _ _)
      have hp0date : (ProjectedTransaction.from_one_time o bb).date = today := hod
      rcases List.mem_cons.mp hmem0 with heq0 | htail
      · rw [← heq0, hp0date]
      · have hle : phead.date ≤ (ProjectedTransaction.from_one_time o bb).date :=
          (List.pairwise_cons.mp hpw).1 _ htail
        rw [hp0date] at hle
        rw [date_le_iff] at hq_ge hle
        exact dateKey_inj (by omega)

set_option maxRecDepth 8000 in
theorem C1_anchor_asymmetry_witness :
    find_latest_balance_snapshot dataMain = some snap100 ∧
      snap100.date < jan15 ∧
      ruleMid ∈ dataMain.recurring ∧ ruleMid.active = true ∧
      get_transaction_date_in_month jan15 ruleMid.day_of_month = some jan15 ∧
      oneAnchor ∈ dataMain.one_time ∧ oneAnchor.date = jan15 ∧
      (∃ pr, project_cashflow dataMain 30 jan15 =
          some (snap100.balance +
              ((past_transactions dataMain snap100.date jan15).map
                fun e => e.2.1.amount).sum,
            jan15, pr) ∧
        recurring_occurrence ruleMid jan15 ∈
          past_transactions dataMain snap100.date jan15 ∧
        (∀ p ∈ pr, p.is_one_time = false → p.date ≠ jan15) ∧
        (oneAnchor.date, oneAnchor, false) ∉
          past_transactions dataMain snap100.date jan15 ∧
        (∃ p ∈ pr, p.is_one_time = true ∧ p.date = jan15 ∧
          p.description = oneAnchor.description ∧ p.amount = oneAnchor.amount) ∧
        ∀ phead, pr.head? = some phead → phead.date = jan15) :=
  ⟨by decide, by decide, by decide, by decide, by decide, by decide, by decide,
    C1_anchor_asymmetry dataMain 30 jan15 snap100 ruleMid oneAnchor
      (by decide) (by decide) (by decide) (by decide) (by decide) (by decide)
      (by decide)⟩
